import Mathlib

/-!
Verification development for the EchoScript transcription app
(React/TypeScript).  The definitions below are a shallow embedding of
the three source files:

* `services/geminiService.ts` (bundled into `TranscriptionDisplay.tsx`
  in this snapshot): `parseJson` and `transcribeAudio`;
* `App.tsx`: the session controller (`handleAudioReady`,
  `handleTranscribe`, `handleReset`) together with the JSX rendering
  gates that decide which handlers a user can actually trigger;
* `FileUploader.tsx`: `processFile` and `handleClear`.

JavaScript values produced by `JSON.parse` are modelled by the
inductive `Json` below; JSON numbers are kept as their validated
literal text (no floating-point arithmetic is ever performed on them
in the source), and string contents are decoded to lists of code
points.
-/

namespace EchoScript

/-- A JavaScript value as produced by `JSON.parse`.  Object fields are
kept in source order; string contents are decoded escape sequences,
represented as code points. -/
inductive Json where
  | null : Json
  | bool (b : Bool) : Json
  | num (lit : List Char) : Json
  | str (cs : List Nat) : Json
  | arr (elems : List Json) : Json
  | obj (fields : List (List Nat × Json)) : Json
  deriving Repr

/-- Code points of a Lean string literal, for writing `Json.str` /
object keys concisely. -/
def jstr (s : String) : List Nat := s.data.map Char.toNat

/-- JSON inter-token whitespace (exactly the four characters the JSON
grammar allows). -/
def jsonWs (c : Char) : Bool :=
  c = ' ' || c = '\t' || c = '\n' || c = '\r'

/-- Skip JSON whitespace. -/
def skipWs : List Char → List Char
  | [] => []
  | c :: cs => if jsonWs c then skipWs cs else c :: cs

/-- Hex digit value, if any. -/
def hexVal (c : Char) : Option Nat :=
  if '0' ≤ c ∧ c ≤ '9' then some (c.toNat - '0'.toNat)
  else if 'a' ≤ c ∧ c ≤ 'f' then some (c.toNat - 'a'.toNat + 10)
  else if 'A' ≤ c ∧ c ≤ 'F' then some (c.toNat - 'A'.toNat + 10)
  else none

/-- The code point of a single-character escape (`\" \\ \/ \b \f \n
\r \t`); `none` for an invalid escape character. -/
def escCode (e : Char) : Option Nat :=
  if e = '"' then some 34
  else if e = '\\' then some 92
  else if e = '/' then some 47
  else if e = 'b' then some 8
  else if e = 'f' then some 12
  else if e = 'n' then some 10
  else if e = 'r' then some 13
  else if e = 't' then some 9
  else none

/-- Body of a JSON string literal, after the opening quote: returns the
decoded code points and the input after the closing quote.  Unescaped
control characters and invalid escapes are rejected, as `JSON.parse`
rejects them. -/
def strBody : Nat → List Char → Option (List Nat × List Char)
  | 0, _ => none
  | _ + 1, [] => none
  | fuel + 1, c :: cs =>
    if c = '"' then some ([], cs)
    else if c = '\\' then
      match cs with
      | [] => none
      | 'u' :: h1 :: h2 :: h3 :: h4 :: cs'' =>
        match hexVal h1, hexVal h2, hexVal h3, hexVal h4 with
        | some a, some b, some c', some d =>
          (strBody fuel cs'').map
            (fun r => ((((a * 16 + b) * 16 + c') * 16 + d) :: r.1, r.2))
        | _, _, _, _ => none
      | e :: cs' =>
        match escCode e with
        | some n => (strBody fuel cs').map (fun r => (n :: r.1, r.2))
        | none => none
    else if c.toNat < 32 then none
    else (strBody fuel cs).map (fun r => (c.toNat :: r.1, r.2))

/-- One or more decimal digits. -/
def digits1 : List Char → Option (List Char × List Char)
  | l =>
    let ds := l.takeWhile Char.isDigit
    if ds.isEmpty then none else some (ds, l.drop ds.length)

/-- Optional leading minus sign of a JSON number. -/
def parseSign : List Char → List Char × List Char
  | '-' :: rest => (['-'], rest)
  | l => ([], l)

/-- Integer part of a JSON number: a bare `0`, or a digit run that
does not start with `0`. -/
def parseIntPart : List Char → Option (List Char × List Char)
  | '0' :: rest => some (['0'], rest)
  | l => digits1 l

/-- Fraction part: `.` followed by one or more digits, or nothing; a
dot without digits invalidates the number. -/
def parseFrac : List Char → Option (List Char × List Char)
  | '.' :: r =>
    match digits1 r with
    | some (ds, r') => some ('.' :: ds, r')
    | none => none
  | l => some ([], l)

/-- Optional sign of an exponent. -/
def parseExpSign : List Char → List Char × List Char
  | '+' :: r => (['+'], r)
  | '-' :: r => (['-'], r)
  | l => ([], l)

/-- Exponent part: `e`/`E`, an optional sign, one or more digits, or
nothing; a marker without digits invalidates the number. -/
def parseExp : List Char → Option (List Char × List Char)
  | c :: r =>
    if c = 'e' ∨ c = 'E' then
      match digits1 (parseExpSign r).2 with
      | some (ds, r') => some (c :: ((parseExpSign r).1 ++ ds), r')
      | none => none
    else some ([], c :: r)
  | [] => some ([], [])

/-- JSON number literal: `-? int frac? exp?`.  Returns the validated
literal characters and the rest of the input. -/
def parseNumber (l : List Char) : Option (List Char × List Char) :=
  let (sgn, l1) := parseSign l
  match parseIntPart l1 with
  | none => none
  | some (ip, l2) =>
    match parseFrac l2 with
    | none => none
    | some (fp, l3) =>
      match parseExp l3 with
      | none => none
      | some (ep, l4) => some (sgn ++ ip ++ fp ++ ep, l4)

mutual

/-- Recursive-descent JSON value parser (fuelled); mirrors the grammar
`JSON.parse` accepts. -/
def parseValue : Nat → List Char → Option (Json × List Char)
  | 0, _ => none
  | _ + 1, [] => none
  | fuel + 1, c :: cs =>
    if c = 'n' then
      match cs with
      | 'u' :: 'l' :: 'l' :: rest => some (Json.null, rest)
      | _ => none
    else if c = 't' then
      match cs with
      | 'r' :: 'u' :: 'e' :: rest => some (Json.bool true, rest)
      | _ => none
    else if c = 'f' then
      match cs with
      | 'a' :: 'l' :: 's' :: 'e' :: rest => some (Json.bool false, rest)
      | _ => none
    else if c = '"' then
      (strBody (cs.length + 1) cs).map (fun r => (Json.str r.1, r.2))
    else if c = '-' ∨ c.isDigit then
      (parseNumber (c :: cs)).map (fun r => (Json.num r.1, r.2))
    else if c = '[' then
      match skipWs cs with
      | ']' :: rest => some (Json.arr [], rest)
      | l => (parseElems fuel l).map (fun r => (Json.arr r.1, r.2))
    else if c = '{' then
      match skipWs cs with
      | '}' :: rest => some (Json.obj [], rest)
      | l => (parseMembers fuel l).map (fun r => (Json.obj r.1, r.2))
    else none

/-- Comma-separated array elements, up to and including `]`. -/
def parseElems : Nat → List Char → Option (List Json × List Char)
  | 0, _ => none
  | fuel + 1, l =>
    match parseValue fuel (skipWs l) with
    | none => none
    | some (v, rest) =>
      match skipWs rest with
      | ',' :: rest' =>
        (parseElems fuel rest').map (fun r => (v :: r.1, r.2))
      | ']' :: rest' => some ([v], rest')
      | _ => none

/-- Comma-separated object members, up to and including `}`. -/
def parseMembers : Nat → List Char → Option (List (List Nat × Json) × List Char)
  | 0, _ => none
  | fuel + 1, l =>
    match skipWs l with
    | '"' :: cs =>
      match strBody (cs.length + 1) cs with
      | none => none
      | some (key, rest) =>
        match skipWs rest with
        | ':' :: rest' =>
          match parseValue fuel (skipWs rest') with
          | none => none
          | some (v, rest'') =>
            match skipWs rest'' with
            | ',' :: rest3 =>
              (parseMembers fuel rest3).map (fun r => ((key, v) :: r.1, r.2))
            | '}' :: rest3 => some ([(key, v)], rest3)
            | _ => none
        | _ => none
    | _ => none

end

/-- Model of `JSON.parse`: `none` is the thrown `SyntaxError`. -/
def parse (s : String) : Option Json :=
  match parseValue (2 * s.data.length + 2) (skipWs s.data) with
  | some (v, rest) => if skipWs rest = [] then some v else none
  | none => none

/-- The first regex alternative of the cleaning step in `parseJson`:
the characters of `"` + "``json\n"`. -/
def fenceOpen : List Char := ['`', '`', '`', 'j', 's', 'o', 'n', '\n']

/-- The second regex alternative: the characters of `"\n"` + three
backticks. -/
def fenceClose : List Char := ['\n', '`', '`', '`']

/-- `text.replace(/```json\n|\n```/g, "")`: scan left to right; at
each position try the first alternative, then the second; a match is
deleted and scanning resumes after it (matches do not overlap). -/
def stripFences : List Char → List Char
  | '`' :: '`' :: '`' :: 'j' :: 's' :: 'o' :: 'n' :: '\n' :: rest =>
    stripFences rest
  | '\n' :: '`' :: '`' :: '`' :: rest => stripFences rest
  | c :: cs => c :: stripFences cs
  | [] => []

/-- The WhiteSpace / LineTerminator code points recognised by
JavaScript's `String.prototype.trim`. -/
def jsTrimWs (c : Char) : Bool :=
  c.toNat = 0x9 || c.toNat = 0xA || c.toNat = 0xB || c.toNat = 0xC ||
  c.toNat = 0xD || c.toNat = 0x20 || c.toNat = 0xA0 || c.toNat = 0x1680 ||
  (0x2000 ≤ c.toNat && c.toNat ≤ 0x200A) || c.toNat = 0x2028 ||
  c.toNat = 0x2029 || c.toNat = 0x202F || c.toNat = 0x205F ||
  c.toNat = 0x3000 || c.toNat = 0xFEFF

/-- `String.prototype.trim`. -/
def jsTrim (s : String) : String :=
  String.mk (((s.data.dropWhile jsTrimWs).reverse.dropWhile jsTrimWs).reverse)

/-- `parseJson` from `geminiService.ts`: strip fence markers, trim,
`JSON.parse`; the `catch` branch returns the JavaScript value `[]`. -/
def parseJson (text : String) : Json :=
  let cleanText := jsTrim (String.mk (stripFences text.data))
  match parse cleanText with
  | some v => v
  | none => Json.arr []

/-! ## The gemini service: request schema and `transcribeAudio` -/

/-- Modelled from the spec: the `Emotion` enumeration lives in the
missing `types.ts`; the spec fixes it as the closed set
`{Happy, Sad, Angry, Neutral}`, realised as a TypeScript string enum
whose values are the names (the display component renders the enum
value as text, and the prompt uses the bare names). -/
inductive Emotion where
  | Happy | Sad | Angry | Neutral
  deriving DecidableEq, Repr

/-- The string value of an `Emotion` member. -/
def Emotion.value : Emotion → String
  | .Happy => "Happy"
  | .Sad => "Sad"
  | .Angry => "Angry"
  | .Neutral => "Neutral"

/-- `Object.values(Emotion)` for the string enum. -/
def emotionValues : List String :=
  [Emotion.Happy, Emotion.Sad, Emotion.Angry, Emotion.Neutral].map Emotion.value

/-- A node of the `responseSchema` literal passed in the request
config: `Type.STRING` nodes carry an optional `enum` list,
`Type.ARRAY` nodes carry their `items` schema, `Type.OBJECT` nodes
carry `properties` (in source order) and the `required` name list. -/
inductive Schema where
  | string (enum : Option (List String)) : Schema
  | array (items : Schema) : Schema
  | object (properties : List (String × Schema)) (required : List String) : Schema
  deriving Repr

/-- The per-segment object schema from `transcribeAudio`'s
`responseSchema.properties.segments.items`. -/
def segmentSchema : Schema :=
  .object
    [("speaker", .string none),
     ("timestamp", .string none),
     ("content", .string none),
     ("language", .string none),
     ("language_code", .string none),
     ("translation", .string none),
     ("emotion", .string (some emotionValues))]
    ["speaker", "timestamp", "content", "language", "language_code", "emotion"]

/-- The top-level `responseSchema` literal from `transcribeAudio`. -/
def responseSchema : Schema :=
  .object
    [("summary", .string none),
     ("segments", .array segmentSchema)]
    ["summary", "segments"]

/-- Look up a property schema by name. -/
def Schema.prop (s : Schema) (name : String) : Option Schema :=
  match s with
  | .object props _ => (props.find? (fun p => p.1 = name)).map Prod.snd
  | _ => none

/-- The `required` list of an object schema. -/
def Schema.requiredList : Schema → List String
  | .object _ req => req
  | _ => []

/-- What `transcribeAudio` dispatches to the external service: the
model id, the audio part, and the generation config including the
response schema. -/
structure GenRequest where
  model : String
  mimeType : String
  base64Audio : String
  schema : Schema

/-- How the one network round-trip resolves, from the caller's point
of view: the promise rejects, or fulfils with `response.text` being
absent/empty or a string. -/
inductive NetOutcome where
  | fail : NetOutcome
  | ok (text : Option String) : NetOutcome

/-- The errors `transcribeAudio` can throw, by source site. -/
inductive TError where
  | apiKeyMissing : TError
  | noResponseText : TError
  | network : TError
  deriving DecidableEq, Repr

/-- `transcribeAudio` from `geminiService.ts`.  `apiKey` models
`process.env.API_KEY` (`none` = undefined); the guard is the JS
falsiness test `!process.env.API_KEY`, so the empty string also
fails it.  The second component is the request actually dispatched to
the service (`none` when no network attempt was made). -/
def transcribeAudio (apiKey : Option String) (base64Audio mimeType : String)
    (net : NetOutcome) : Except TError Json × Option GenRequest :=
  if apiKey = none ∨ apiKey = some "" then
    (.error .apiKeyMissing, none)
  else
    let req : GenRequest :=
      { model := "gemini-3-flash-preview", mimeType := mimeType,
        base64Audio := base64Audio, schema := responseSchema }
    match net with
    | .fail => (.error .network, some req)
    | .ok none => (.error .noResponseText, some req)
    | .ok (some "") => (.error .noResponseText, some req)
    | .ok (some t) => (.ok (parseJson t), some req)

/-! ## The session controller (`App.tsx`)

The React component state is flattened into `AppState`; the `inFlight`
flag is model bookkeeping for the awaited promise inside
`handleTranscribe` (set when the request is dispatched, cleared when
the `await` resumes) — it is not a source variable, but which
continuation runs on promise settlement is fully determined by it.
User events are only deliverable when the JSX renders (and enables)
the corresponding control, so each event in `step` is guarded by the
render/`disabled` conditions read off the JSX. -/

/-- The two input tabs. -/
inductive Mode where
  | record | upload
  deriving DecidableEq, Repr

/-- Modelled from the spec: `AppStatus` is declared in the missing
`types.ts`.  The spec's state machine names
`idle, capturing, ready, processing, success, error`; `App.tsx` itself
only ever assigns the literals `'idle'`, `'processing'`, `'success'`,
`'error'`. -/
inductive Status where
  | idle | capturing | ready | processing | success | error
  deriving DecidableEq, Repr

/-- The `AudioData` payload (`types.ts`, shape visible at every use
site): base64 content plus MIME type; the blob is not modelled beyond
its presence. -/
structure AudioData where
  base64 : String
  mimeType : String
  deriving DecidableEq, Repr

/-- The `useState` cells of `App`, plus the `inFlight` bookkeeping
flag for the pending `transcribeAudio` promise. -/
structure AppState where
  mode : Mode
  status : Status
  audioData : Option AudioData
  result : Option Json
  error : Option String
  inFlight : Bool

/-- The initial `useState` values of `App`. -/
def initState : AppState :=
  { mode := .record, status := .idle, audioData := none, result := none,
    error := none, inFlight := false }

/-- `handleAudioReady`: store the payload, clear error and previous
result.  No status is assigned. -/
def handleAudioReady (s : AppState) (d : AudioData) : AppState :=
  { s with audioData := some d, error := none, result := none }

/-- The synchronous prefix of `handleTranscribe`: bail out if there is
no payload; otherwise enter `processing`, clear the error, and
dispatch `transcribeAudio` (second component `true`). -/
def handleTranscribe (s : AppState) : AppState × Bool :=
  if s.audioData = none then (s, false)
  else ({ s with status := .processing, error := none, inFlight := true }, true)

/-- `handleReset`. -/
def handleReset (s : AppState) : AppState :=
  { s with audioData := none, result := none, status := .idle, error := none }

/-- The error message assigned in `handleTranscribe`'s catch branch. -/
def transcribeErrMsg : String :=
  "An error occurred during transcription. Please try again."

/-- Resumption of `handleTranscribe` when the awaited promise
fulfils with the parsed data. -/
def resolveSuccess (s : AppState) (data : Json) : AppState :=
  { s with result := some data, status := .success, inFlight := false }

/-- Resumption of `handleTranscribe` when the awaited promise
rejects (the catch branch). -/
def resolveError (s : AppState) : AppState :=
  { s with error := some transcribeErrMsg, status := .error, inFlight := false }

/-- JSX: the input section (recorder/uploader and the Generate
Transcript button) is rendered only when
`!result && status !== 'processing'`. -/
def inputSectionVisible (s : AppState) : Bool :=
  s.result.isNone && s.status ≠ .processing

/-- JSX: the Generate Transcript button additionally requires
`audioData` to be present. -/
def transcribeButtonVisible (s : AppState) : Bool :=
  inputSectionVisible s && s.audioData ≠ none

/-- JSX: the mode tabs are rendered when `!result` and carry
`disabled={status === 'processing'}`. -/
def tabsActive (s : AppState) : Bool :=
  s.result.isNone && s.status ≠ .processing

/-- JSX: the Start Over button is rendered only when
`result && status === 'success'`. -/
def startOverVisible (s : AppState) : Bool :=
  s.result.isSome && s.status = .success

/-- User-level and asynchronous events of a session.  `capture d` is
the delivery of `onFileSelected`/`onAudioCaptured` by a completed
`FileReader` read or recorder callback — the tail of an asynchronous
operation started earlier, which the source neither cancels nor gates
on the current render state; the click events exist only while the JSX
renders (and enables) the corresponding control; `respond o` is the
settlement of the pending `transcribeAudio` promise. -/
inductive Event where
  | capture (d : AudioData) : Event
  | clickTranscribe : Event
  | clickTab (m : Mode) : Event
  | clickStartOver : Event
  | respond (o : Option Json) : Event

/-- One step of the session: deliver an event; the second component
records whether this step dispatched a transcription request.  Click
events honour the render and `disabled` gates; a `capture` delivery is
ungated (the pending reader fires regardless of what is on screen); a
`respond` event can only occur while a request is in flight. -/
def step (s : AppState) (e : Event) : AppState × Bool :=
  match e with
  | .capture d => (handleAudioReady s d, false)
  | .clickTranscribe =>
    if transcribeButtonVisible s then handleTranscribe s else (s, false)
  | .clickTab m =>
    if tabsActive s then ({ handleReset s with mode := m }, false) else (s, false)
  | .clickStartOver =>
    if startOverVisible s then (handleReset s, false) else (s, false)
  | .respond o =>
    if s.inFlight then
      match o with
      | some data => (resolveSuccess s data, false)
      | none => (resolveError s, false)
    else (s, false)

/-- States reachable from the initial render by event delivery. -/
inductive Reach : AppState → Prop where
  | init : Reach initState
  | next {s : AppState} (e : Event) : Reach s → Reach (step s e).1

/-! ## The file uploader (`FileUploader.tsx`) -/

/-- `String.prototype.startsWith(p)`: `p`'s characters are a prefix of
the receiver's. -/
def jsStartsWith (s p : String) : Bool := p.data.isPrefixOf s.data

/-- A DOM `File` as `processFile` reads it: name and declared MIME
type. -/
structure JsFile where
  name : String
  type : String

/-- Local component state of `FileUploader`, plus the file input
element's `value`. -/
structure UploaderState where
  dragActive : Bool
  fileName : Option String
  inputValue : String

/-- What one `processFile` call produces: whether the alert fired,
the `fileName` state written, and the payload passed to
`onFileSelected` (built by the `FileReader.onloadend` callback from
the data URL). -/
structure ProcessOutcome where
  alerted : Bool
  fileNameSet : Option String
  emitted : Option AudioData

/-- `processFile`: reject (alert, no emission) unless the declared
MIME type starts with `audio/` or `video/`; otherwise record the file
name and emit the payload, whose base64 is the data URL after the
first comma (`split(',')[1]`, `""` standing for the out-of-range
access). -/
def processFile (f : JsFile) (dataUrl : String) : ProcessOutcome :=
  if ¬ jsStartsWith f.type "audio/" ∧ ¬ jsStartsWith f.type "video/" then
    { alerted := true, fileNameSet := none, emitted := none }
  else
    { alerted := false, fileNameSet := some f.name,
      emitted := some { base64 := ((dataUrl.splitOn ",").drop 1).headD "",
                        mimeType := f.type } }

/-- `handleClear`: clear the displayed file name and the input
element's value; nothing else. -/
def handleClear (u : UploaderState) : UploaderState :=
  { u with fileName := none, inputValue := "" }

/-- The uploader's clear button only touches uploader-local state:
delivered on the combined app × uploader state it leaves the app
component untouched. -/
def uiClearFile (p : AppState × UploaderState) : AppState × UploaderState :=
  (p.1, handleClear p.2)

/-! ## Theorems -/

/-- Demo audio payload used by concrete witnesses. -/
def demoAudio : AudioData := { base64 := "QUJD", mimeType := "audio/webm" }

/-- C2: every request the builder dispatches carries a schema whose
segment object marks `speaker`, `timestamp`, `content`, `language`,
`language_code`, `emotion` as required and constrains `emotion` to
exactly the enum `["Happy", "Sad", "Angry", "Neutral"]`
(= `Object.values(Emotion)`). -/
theorem C2_request_schema_required_and_emotion_enum
    (apiKey : Option String) (b64 mt : String) (net : NetOutcome)
    (req : GenRequest)
    (h : (transcribeAudio apiKey b64 mt net).2 = some req) :
    req.schema.prop "segments" = some (.array segmentSchema) ∧
    segmentSchema.requiredList =
      ["speaker", "timestamp", "content", "language", "language_code",
       "emotion"] ∧
    segmentSchema.prop "emotion" =
      some (.string (some ["Happy", "Sad", "Angry", "Neutral"])) := by
  have hs : req.schema = responseSchema := by
    by_cases hk : apiKey = none ∨ apiKey = some ""
    · simp [transcribeAudio, hk] at h
    · cases net with
      | fail => simp [transcribeAudio, hk] at h; rw [← h]
      | ok t =>
        cases t with
        | none => simp [transcribeAudio, hk] at h; rw [← h]
        | some s =>
          by_cases he : s = ""
          · subst he; simp [transcribeAudio, hk] at h; rw [← h]
          · simp [transcribeAudio, hk, he] at h; rw [← h]
  rw [hs]
  refine ⟨rfl, rfl, rfl⟩

/-- Witness for C2 at a concrete invocation. -/
theorem C2_witness :
    (transcribeAudio (some "key") "QUJD" "audio/webm" .fail).2 =
      some { model := "gemini-3-flash-preview", mimeType := "audio/webm",
             base64Audio := "QUJD", schema := responseSchema } ∧
    ({ model := "gemini-3-flash-preview", mimeType := "audio/webm",
       base64Audio := "QUJD",
       schema := responseSchema : GenRequest }).schema.prop "segments" =
      some (.array segmentSchema) ∧
    segmentSchema.requiredList =
      ["speaker", "timestamp", "content", "language", "language_code",
       "emotion"] ∧
    segmentSchema.prop "emotion" =
      some (.string (some ["Happy", "Sad", "Angry", "Neutral"])) :=
  ⟨rfl, C2_request_schema_required_and_emotion_enum
    (some "key") "QUJD" "audio/webm" .fail _ rfl⟩

/-- C3: delivering a transcription-start click while the status is
already `processing` leaves the state unchanged and dispatches no
request (the Generate Transcript button is not rendered while
`status === 'processing'`). -/
theorem C3_transcribe_noop_while_processing
    (s : AppState) (h : s.status = .processing) :
    step s .clickTranscribe = (s, false) := by
  simp [step, transcribeButtonVisible, inputSectionVisible, h]

/-- Witness for C3 at a concrete processing-state session. -/
theorem C3_witness :
    step { mode := .record, status := .processing,
           audioData := some demoAudio, result := none, error := none,
           inFlight := true } .clickTranscribe =
      ({ mode := .record, status := .processing,
         audioData := some demoAudio, result := none, error := none,
         inFlight := true }, false) :=
  C3_transcribe_noop_while_processing _ rfl

/-- C6: invoked with the process-wide credential absent,
`transcribeAudio` fails with the dedicated credential-missing error
and dispatches no request, and that error is distinct from the
network-failure and empty-response errors. -/
theorem C6_missing_credential_fails_before_network
    (apiKey : Option String) (b64 mt : String) (net : NetOutcome)
    (h : apiKey = none) :
    transcribeAudio apiKey b64 mt net = (.error .apiKeyMissing, none) ∧
    TError.apiKeyMissing ≠ TError.network ∧
    TError.apiKeyMissing ≠ TError.noResponseText := by
  subst h
  refine ⟨by simp [transcribeAudio], by decide, by decide⟩

/-- Witness for C6 at a concrete invocation with no credential. -/
theorem C6_witness :
    transcribeAudio none "QUJD" "audio/webm" .fail =
      (.error .apiKeyMissing, none) ∧
    TError.apiKeyMissing ≠ TError.network ∧
    TError.apiKeyMissing ≠ TError.noResponseText :=
  C6_missing_credential_fails_before_network none "QUJD" "audio/webm" .fail rfl

/-- C7: `processFile` rejects every file whose declared MIME type
starts with neither `audio/` nor `video/`: the alert fires, no file
name is recorded, and no payload is emitted. -/
theorem C7_non_audio_video_rejected
    (f : JsFile) (dataUrl : String)
    (h1 : jsStartsWith f.type "audio/" = false)
    (h2 : jsStartsWith f.type "video/" = false) :
    processFile f dataUrl =
      { alerted := true, fileNameSet := none, emitted := none } := by
  simp [processFile, h1, h2]

/-- Witness for C7 at a concrete text file. -/
theorem C7_witness :
    processFile { name := "notes.txt", type := "text/plain" } "data:text/plain;base64,QUJD" =
      { alerted := true, fileNameSet := none, emitted := none } :=
  C7_non_audio_video_rejected _ _ (by decide) (by decide)

/-- C8: when the in-flight transcription promise rejects, the session
moves to `error` with the user-facing message set, while the captured
payload (and the rest of the state outside status/error/inFlight) is
retained. -/
theorem C8_transport_failure_keeps_payload
    (s : AppState) (h : s.inFlight = true) :
    (step s (.respond none)).1.status = .error ∧
    (step s (.respond none)).1.error = some transcribeErrMsg ∧
    (step s (.respond none)).1.audioData = s.audioData ∧
    (step s (.respond none)).1.result = s.result ∧
    (step s (.respond none)).1.mode = s.mode := by
  simp [step, h, resolveError]

/-- Witness for C8 at a concrete in-flight session. -/
theorem C8_witness :
    ((step { mode := .record, status := .processing,
             audioData := some demoAudio, result := none, error := none,
             inFlight := true } (.respond none)).1.status = .error) ∧
    ((step { mode := .record, status := .processing,
             audioData := some demoAudio, result := none, error := none,
             inFlight := true } (.respond none)).1.error =
      some transcribeErrMsg) ∧
    ((step { mode := .record, status := .processing,
             audioData := some demoAudio, result := none, error := none,
             inFlight := true } (.respond none)).1.audioData =
      some demoAudio) ∧
    ((step { mode := .record, status := .processing,
             audioData := some demoAudio, result := none, error := none,
             inFlight := true } (.respond none)).1.result =
      (none : Option Json)) ∧
    ((step { mode := .record, status := .processing,
             audioData := some demoAudio, result := none, error := none,
             inFlight := true } (.respond none)).1.mode = .record) :=
  C8_transport_failure_keeps_payload _ rfl

/-- C1: on unparseable raw text such as `"not json"`, `parseJson` does
not throw, but the value it returns is the empty array `[]` — not the
object `{ summary: "", segments: [] }` the contract names. -/
theorem C1_parse_failure_returns_empty_array :
    parseJson "not json" = Json.arr [] ∧
    Json.arr [] ≠
      Json.obj [(jstr "summary", Json.str []),
                (jstr "segments", Json.arr [])] :=
  ⟨rfl, fun h => Json.noConfusion h⟩

/-- C5 counterexample: a fresh successful capture in `idle` stores the
payload but leaves the status at `idle`, which is not `ready`;
`handleAudioReady` assigns no status at all. -/
theorem C5_counterexample :
    (step initState (.capture demoAudio)).1.audioData = some demoAudio ∧
    (step initState (.capture demoAudio)).1.status = .idle ∧
    Status.idle ≠ Status.ready :=
  ⟨rfl, rfl, by decide⟩

/-- C5 amended: a fresh successful capture delivered in `idle`,
`ready` or `error` (no result on display) stores the payload and
discards any previously held response and error, but leaves the
status unchanged — the handler never assigns a status, so no `ready`
state is entered. -/
theorem C5_capture_keeps_status
    (s : AppState) (d : AudioData)
    (hst : s.status = .idle ∨ s.status = .ready ∨ s.status = .error)
    (hres : s.result = none) :
    (step s (.capture d)).1.status = s.status ∧
    (step s (.capture d)).1.audioData = some d ∧
    (step s (.capture d)).1.result = none ∧
    (step s (.capture d)).1.error = none := by
  simp [step, handleAudioReady]

/-- Witness for the amended C5 at a concrete error-state session. -/
theorem C5_witness :
    ((step { mode := .upload, status := .error, audioData := some demoAudio,
             result := none, error := some transcribeErrMsg,
             inFlight := false } (.capture demoAudio)).1.status = .error) ∧
    ((step { mode := .upload, status := .error, audioData := some demoAudio,
             result := none, error := some transcribeErrMsg,
             inFlight := false } (.capture demoAudio)).1.audioData =
      some demoAudio) ∧
    ((step { mode := .upload, status := .error, audioData := some demoAudio,
             result := none, error := some transcribeErrMsg,
             inFlight := false } (.capture demoAudio)).1.result =
      (none : Option Json)) ∧
    ((step { mode := .upload, status := .error, audioData := some demoAudio,
             result := none, error := some transcribeErrMsg,
             inFlight := false } (.capture demoAudio)).1.error =
      (none : Option String)) :=
  C5_capture_keeps_status _ demoAudio (Or.inr (Or.inr rfl)) rfl

/-- C10: activating the uploader's clear action resets only the
uploader's displayed file name and the input element's value
(`dragActive` and the whole app component are untouched); the session
still holds the payload, so a transcribe click still dispatches a
request. -/
theorem C10_clear_keeps_session_payload
    (a : AppState) (u : UploaderState) (d : AudioData)
    (hd : a.audioData = some d) (hres : a.result = none)
    (hst : a.status ≠ .processing) :
    (uiClearFile (a, u)).1 = a ∧
    (uiClearFile (a, u)).2.fileName = none ∧
    (uiClearFile (a, u)).2.inputValue = "" ∧
    (uiClearFile (a, u)).2.dragActive = u.dragActive ∧
    (uiClearFile (a, u)).1.audioData = some d ∧
    (step a .clickTranscribe).2 = true := by
  refine ⟨rfl, rfl, rfl, rfl, hd, ?_⟩
  simp [step, transcribeButtonVisible, inputSectionVisible, hres, hst,
    handleTranscribe, hd]

/-- Witness for C10 at a concrete session with an emitted payload and
a populated uploader. -/
theorem C10_witness :
    ((uiClearFile ({ mode := .upload, status := .idle,
                     audioData := some demoAudio, result := none,
                     error := none, inFlight := false },
                   { dragActive := false, fileName := some "clip.webm",
                     inputValue := "C:\\fakepath\\clip.webm" })).1 =
      { mode := .upload, status := .idle, audioData := some demoAudio,
        result := none, error := none, inFlight := false }) ∧
    ((uiClearFile ({ mode := .upload, status := .idle,
                     audioData := some demoAudio, result := none,
                     error := none, inFlight := false },
                   { dragActive := false, fileName := some "clip.webm",
                     inputValue := "C:\\fakepath\\clip.webm" })).2.fileName =
      none) ∧
    ((uiClearFile ({ mode := .upload, status := .idle,
                     audioData := some demoAudio, result := none,
                     error := none, inFlight := false },
                   { dragActive := false, fileName := some "clip.webm",
                     inputValue := "C:\\fakepath\\clip.webm" })).2.inputValue =
      "") ∧
    ((uiClearFile ({ mode := .upload, status := .idle,
                     audioData := some demoAudio, result := none,
                     error := none, inFlight := false },
                   { dragActive := false, fileName := some "clip.webm",
                     inputValue := "C:\\fakepath\\clip.webm" })).2.dragActive =
      false) ∧
    ((uiClearFile ({ mode := .upload, status := .idle,
                     audioData := some demoAudio, result := none,
                     error := none, inFlight := false },
                   { dragActive := false, fileName := some "clip.webm",
                     inputValue := "C:\\fakepath\\clip.webm" })).1.audioData =
      some demoAudio) ∧
    ((step { mode := .upload, status := .idle, audioData := some demoAudio,
             result := none, error := none, inFlight := false }
        .clickTranscribe).2 = true) :=
  C10_clear_keeps_session_payload _ _ demoAudio rfl rfl (by decide)

/-- In every reachable session state, a request can only be in flight
while the status is `processing`: the dispatch site sets `processing`,
and every event that could leave `processing` also settles the
promise.  Consequently the click-driven resets (mode tabs, Start
Over) are disabled or unmounted for the whole flight; the only event
that can touch a session mid-flight is an ungated asynchronous
capture delivery. -/
theorem inFlight_processing {s : AppState} (hr : Reach s) :
    s.inFlight = true → s.status = .processing := by
  induction hr with
  | init => intro h; cases h
  | next e hr ih =>
    rename_i s'
    intro h
    cases e with
    | capture d =>
      simp [step, handleAudioReady] at h ⊢
      exact ih h
    | clickTranscribe =>
      by_cases hv : transcribeButtonVisible s' = true
      · by_cases ha : s'.audioData = none
        · simp [step, hv, handleTranscribe, ha] at h ⊢
          exact ih h
        · simp [step, hv, handleTranscribe, ha]
      · simp only [Bool.not_eq_true] at hv
        simp [step, hv] at h ⊢
        exact ih h
    | clickTab m =>
      by_cases hv : tabsActive s' = true
      · have hst : s'.status ≠ .processing := by
          simp [tabsActive] at hv; exact hv.2
        have : s'.inFlight = true := by
          simpa [step, hv, handleReset] using h
        exact absurd (ih this) hst
      · simp only [Bool.not_eq_true] at hv
        simp [step, hv] at h ⊢
        exact ih h
    | clickStartOver =>
      by_cases hv : startOverVisible s' = true
      · have hst : s'.status = .success := by
          simp [startOverVisible] at hv; exact hv.2
        have : s'.inFlight = true := by
          simpa [step, hv, handleReset] using h
        have := ih this
        rw [this] at hst
        cases hst
      · simp only [Bool.not_eq_true] at hv
        simp [step, hv] at h ⊢
        exact ih h
    | respond o =>
      by_cases hf : s'.inFlight = true
      · cases o with
        | some data => simp [step, hf, resolveSuccess] at h
        | none => simp [step, hf, resolveError] at h
      · simp only [Bool.not_eq_true] at hf
        simp [step, hf] at h

/-- A second demo payload, delivered by a reader that was still
pending when transcription started. -/
def demoAudio2 : AudioData := { base64 := "WFla", mimeType := "audio/mpeg" }

/-- The parsed transcription the stale attempt resolves with. -/
def staleResult : Json :=
  Json.obj [(jstr "summary", Json.str (jstr "old")),
            (jstr "segments", Json.arr [])]

/-- A session superseded mid-flight: capture the first payload, start
transcription (request in flight), then a pending reader delivers a
second capture while the request is still outstanding. -/
def supersededSession : AppState :=
  (step (step (step initState (.capture demoAudio)).1
      .clickTranscribe).1 (.capture demoAudio2)).1

/-- C4 fails on the code: in the superseded session the request for
the first payload is still in flight while the session already holds
the second payload, and when that stale request resolves the
controller applies `setResult`/`setStatus('success')` unconditionally
— the stale response overwrites the newer session state (final state:
`success`, carrying the first attempt's transcript next to the second
capture's payload).  No session-identity check or generation tag
exists in the code. -/
theorem C4_stale_response_overwrites :
    supersededSession.inFlight = true ∧
    supersededSession.status = .processing ∧
    supersededSession.audioData = some demoAudio2 ∧
    demoAudio2 ≠ demoAudio ∧
    (step supersededSession (.respond (some staleResult))).1.status =
      .success ∧
    (step supersededSession (.respond (some staleResult))).1.result =
      some staleResult ∧
    (step supersededSession (.respond (some staleResult))).1.audioData =
      some demoAudio2 :=
  ⟨rfl, rfl, rfl, by decide, rfl, rfl, rfl⟩

/-! ### Occurrence analysis for the fence-stripping regex

`parseJson`'s cleaning step deletes every occurrence of the two
alternatives `fenceOpen` and `fenceClose`.  To settle C9 in full
generality we show that text accepted by the JSON grammar contains no
occurrence of either alternative (backticks can occur only inside
string literals, which cannot contain a raw newline), so the cleaning
removes exactly the wrapper markers and nothing of the payload. -/

/-- A prefix of a concatenation either lies in the left part or
extends it. -/
theorem prefix_append_cases {α : Type} {p a b : List α} (h : p <+: a ++ b) :
    p <+: a ∨ ∃ t, p = a ++ t ∧ t <+: b := by
  obtain ⟨u, hu⟩ := h
  rcases List.append_eq_append_iff.mp hu with ⟨w, hw1, _⟩ | ⟨w, hw1, hw2⟩
  · exact Or.inl ⟨w, hw1.symm⟩
  · exact Or.inr ⟨w, hw1, ⟨u, hw2.symm⟩⟩

/-- A suffix of a concatenation either lies in the right part or
extends it. -/
theorem suffix_append_cases {α : Type} {p a b : List α} (h : p <:+ a ++ b) :
    p <:+ b ∨ ∃ t, p = t ++ b ∧ t <:+ a := by
  obtain ⟨u, hu⟩ := h
  rcases List.append_eq_append_iff.mp hu with ⟨w, hw1, hw2⟩ | ⟨w, _, hw2⟩
  · exact Or.inr ⟨w, hw2, ⟨u, hw1.symm⟩⟩
  · exact Or.inl ⟨w, hw2.symm⟩

/-- An infix of a concatenation lies in one part or straddles the
junction. -/
theorem infix_append_cases {α : Type} {p a b : List α} (h : p <:+: a ++ b) :
    p <:+: a ∨ p <:+: b ∨
    ∃ s₁ s₂, p = s₁ ++ s₂ ∧ s₁ ≠ [] ∧ s₂ ≠ [] ∧ s₁ <:+ a ∧ s₂ <+: b := by
  obtain ⟨t, hpt, hta⟩ := List.infix_iff_prefix_suffix.mp h
  rcases suffix_append_cases hta with htb | ⟨t', ht', hta'⟩
  · exact Or.inr (Or.inl (List.infix_iff_prefix_suffix.mpr ⟨t, hpt, htb⟩))
  · rw [ht'] at hpt
    rcases prefix_append_cases hpt with hpa | ⟨w, hpw, hwb⟩
    · exact Or.inl (List.infix_iff_prefix_suffix.mpr ⟨t', hpa, hta'⟩)
    · by_cases ht'e : t' = []
      · subst ht'e
        rw [List.nil_append] at hpw
        subst hpw
        exact Or.inr (Or.inl hwb.isInfix)
      · by_cases hwe : w = []
        · subst hwe
          rw [List.append_nil] at hpw
          subst hpw
          exact Or.inl hta'.isInfix
        · exact Or.inr (Or.inr ⟨t', w, hpw, ht'e, hwe, hta', hwb⟩)

/-- A nonempty suffix shares its last element with the whole list. -/
theorem getLast?_of_suffix {p l : List Char} (h : p <:+ l) (hne : p ≠ []) :
    l.getLast? = p.getLast? := by
  obtain ⟨u, rfl⟩ := h
  rw [List.getLast?_append]
  cases hp : p.getLast? with
  | none => exact absurd (List.getLast?_eq_none.mp hp) hne
  | some x => simp

/-- Text in which neither cleaning alternative occurs, which moreover
cannot contribute to an occurrence in a wider context: no nonempty
proper prefix of `fenceOpen` is a suffix (so no occurrence can begin
here and end in what follows), and the first character is not a
backtick (so no occurrence can end here having begun in what
precedes: every straddling completion of either alternative starts
with a backtick or is excluded by the suffix condition). -/
def FenceFree (c : List Char) : Prop :=
  ¬ fenceOpen <:+: c ∧ ¬ fenceClose <:+: c ∧
  (∀ k, 1 ≤ k → k ≤ 7 → ¬ fenceOpen.take k <:+ c) ∧
  c.head? ≠ some '`'

/-- Backtick-free text is fence-free: every alternative and every
nonempty prefix of one contains a backtick. -/
theorem fenceFree_of_bt_free {c : List Char} (h : '`' ∉ c) : FenceFree c := by
  have hmem : ∀ p : List Char, '`' ∈ p → ¬ p <:+: c := by
    intro p hp hinf
    exact h (hinf.subset hp)
  refine ⟨hmem _ (by decide), hmem _ (by decide), ?_, ?_⟩
  · intro k hk1 _ hs
    apply hmem (fenceOpen.take k) ?_ hs.isInfix
    cases k with
    | zero => omega
    | succ k' => simp [fenceOpen, List.take_succ_cons]
  · intro hh
    cases c with
    | nil => simp at hh
    | cons a t =>
      simp at hh
      exact h (hh ▸ List.mem_cons_self a t)

/-- A string-literal chunk (opens and closes with a quote, contains no
raw newline) is fence-free: both alternatives contain a newline, and
every nonempty prefix of `fenceOpen` ends in a character other than a
quote. -/
theorem fenceFree_string {c : List Char} (hh : c.head? = some '"')
    (hl : c.getLast? = some '"') (hn : '\n' ∉ c) : FenceFree c := by
  have hmem : ∀ p : List Char, '\n' ∈ p → ¬ p <:+: c := by
    intro p hp hinf
    exact hn (hinf.subset hp)
  refine ⟨hmem _ (by decide), hmem _ (by decide), ?_, ?_⟩
  · intro k hk1 hk7 hs
    have hne : fenceOpen.take k ≠ [] := by
      intro he
      have := congrArg List.length he
      simp [fenceOpen] at this
      omega
    have hlast : c.getLast? = (fenceOpen.take k).getLast? :=
      getLast?_of_suffix hs hne
    rw [hl] at hlast
    interval_cases k <;> simp [fenceOpen] at hlast
  · rw [hh]
    simp

/-- Fence-freedom is closed under concatenation: an occurrence in the
concatenation would lie in one part or straddle the junction, and
every straddle is excluded by the suffix/head conditions. -/
theorem fenceFree_append {a b : List Char} (ha : FenceFree a)
    (hb : FenceFree b) : FenceFree (a ++ b) := by
  obtain ⟨ha1, ha2, ha3, ha4⟩ := ha
  obtain ⟨hb1, hb2, hb3, hb4⟩ := hb
  refine ⟨?_, ?_, ?_, ?_⟩
  · intro h
    rcases infix_append_cases h with h | h | ⟨s₁, s₂, hp, h1ne, h2ne, hs₁, hs₂⟩
    · exact ha1 h
    · exact hb1 h
    · have hlen : s₁.length + s₂.length = 8 := by
        have := congrArg List.length hp
        simp [fenceOpen] at this
        omega
      have hs1take : s₁ = fenceOpen.take s₁.length :=
        List.prefix_iff_eq_take.mp ⟨s₂, hp.symm⟩
      have h1 : 1 ≤ s₁.length := by
        cases s₁ with
        | nil => exact absurd rfl h1ne
        | cons x xs => simp
      have h7 : s₁.length ≤ 7 := by
        have h2 : 1 ≤ s₂.length := by
          cases s₂ with
          | nil => exact absurd rfl h2ne
          | cons x xs => simp
        omega
      exact ha3 s₁.length h1 h7 (hs1take ▸ hs₁)
  · intro h
    rcases infix_append_cases h with h | h | ⟨s₁, s₂, hp, h1ne, h2ne, hs₁, hs₂⟩
    · exact ha2 h
    · exact hb2 h
    · have hlen : s₁.length + s₂.length = 4 := by
        have := congrArg List.length hp
        simp [fenceClose] at this
        omega
      have hs2drop : s₂ = fenceClose.drop s₁.length := by
        rw [hp, List.drop_left]
      have h1 : 1 ≤ s₁.length := by
        cases s₁ with
        | nil => exact absurd rfl h1ne
        | cons x xs => simp
      have h3 : s₁.length ≤ 3 := by
        have h2 : 1 ≤ s₂.length := by
          cases s₂ with
          | nil => exact absurd rfl h2ne
          | cons x xs => simp
        omega
      have hbh : b.head? = s₂.head? := by
        obtain ⟨t, rfl⟩ := hs₂
        cases s₂ with
        | nil => exact absurd rfl h2ne
        | cons x xs => rfl
      apply hb4
      rw [hbh, hs2drop]
      set k := s₁.length
      interval_cases k <;> simp [fenceClose]
  · intro k hk1 hk7 hs
    rcases suffix_append_cases hs with h | ⟨t, ht, hta⟩
    · exact hb3 k hk1 hk7 h
    · by_cases hte : t = []
      · subst hte
        rw [List.nil_append] at ht
        exact hb3 k hk1 hk7 (ht ▸ List.suffix_refl b)
      · have htp : t <+: fenceOpen.take k := ⟨b, ht.symm⟩
        have hteq : t = fenceOpen.take (min t.length k) := by
          have := List.prefix_iff_eq_take.mp htp
          rwa [List.take_take] at this
        have ht1 : 1 ≤ t.length := by
          cases t with
          | nil => exact absurd rfl hte
          | cons x xs => simp
        have htk : t.length ≤ k := by
          have := htp.length_le
          simp [fenceOpen] at this
          omega
        have ht7 : t.length ≤ 7 := le_trans htk hk7
        have hmin : min t.length k = t.length := by omega
        rw [hmin] at hteq
        exact ha3 t.length ht1 ht7 (hteq ▸ hta)
  · cases a with
    | nil => simpa using hb4
    | cons x xs => simpa using ha4

/-- When neither alternative matches at the current position, the
cleaning scan keeps the character and moves on. -/
theorem stripFences_cons_of_no_match {c : Char} {cs : List Char}
    (h1 : ¬ fenceOpen <+: c :: cs) (h2 : ¬ fenceClose <+: c :: cs) :
    stripFences (c :: cs) = c :: stripFences cs := by
  rw [stripFences.eq_def]
  split
  · rename_i rest heq
    exact absurd ⟨rest, heq.symm⟩ h1
  · rename_i rest heq
    exact absurd ⟨rest, heq.symm⟩ h2
  · rename_i heq
    injection heq with h3 h4
    subst h3; subst h4; rfl
  · rename_i heq
    simp at heq

/-- The cleaning scan leaves occurrence-free text unchanged. -/
theorem stripFences_eq_self {x : List Char}
    (h1 : ¬ fenceOpen <:+: x) (h2 : ¬ fenceClose <:+: x) :
    stripFences x = x := by
  induction x with
  | nil => rfl
  | cons c cs ih =>
    rw [stripFences_cons_of_no_match (fun hp => h1 hp.isInfix)
      (fun hp => h2 hp.isInfix),
      ih (fun hi => h1 (List.infix_cons hi)) (fun hi => h2 (List.infix_cons hi))]

/-- Cleaning an occurrence-free text followed by the closing fence
removes exactly the fence: the only way an occurrence could straddle
into the appended `fenceClose` is through the text ending in
` ```json `, which the third hypothesis rules out. -/
theorem stripFences_append_close {x : List Char}
    (h1 : ¬ fenceOpen <:+: x) (h2 : ¬ fenceClose <:+: x)
    (h3 : ¬ fenceOpen.take 7 <:+ x) :
    stripFences (x ++ fenceClose) = x := by
  induction x with
  | nil => rfl
  | cons c cs ih =>
    have key1 : ¬ fenceOpen <+: (c :: cs) ++ fenceClose := by
      intro hp
      rcases prefix_append_cases hp with hpa | ⟨t, hpt, htb⟩
      · exact h1 hpa.isInfix
      · by_cases hte : t = []
        · subst hte
          rw [List.append_nil] at hpt
          apply h1
          rw [← hpt]
        · have hts : t <:+ fenceOpen := ⟨c :: cs, hpt.symm⟩
          have htnl : t = ['\n'] := by
            have hm := (List.mem_tails t fenceOpen).mpr hts
            fin_cases hm
            · exact absurd htb (by decide)
            · exact absurd htb (by decide)
            · exact absurd htb (by decide)
            · exact absurd htb (by decide)
            · exact absurd htb (by decide)
            · exact absurd htb (by decide)
            · exact absurd htb (by decide)
            · rfl
            · exact absurd rfl hte
          subst htnl
          have h78 : fenceOpen = fenceOpen.take 7 ++ ['\n'] := by decide
          rw [h78] at hpt
          have hceq : fenceOpen.take 7 = c :: cs :=
            (List.append_inj' hpt rfl).1
          apply h3
          rw [hceq]
    have key2 : ¬ fenceClose <+: (c :: cs) ++ fenceClose := by
      intro hp
      rcases prefix_append_cases hp with hpa | ⟨t, hpt, htb⟩
      · exact h2 hpa.isInfix
      · by_cases hte : t = []
        · subst hte
          rw [List.append_nil] at hpt
          apply h2
          rw [← hpt]
        · have hts : t <:+ fenceClose := ⟨c :: cs, hpt.symm⟩
          have hm := (List.mem_tails t fenceClose).mpr hts
          fin_cases hm
          · have := congrArg List.length hpt
            simp [fenceClose] at this
          · exact absurd htb (by decide)
          · exact absurd htb (by decide)
          · exact absurd htb (by decide)
          · exact absurd rfl hte
    have hstep : stripFences (c :: (cs ++ fenceClose))
        = c :: stripFences (cs ++ fenceClose) :=
      stripFences_cons_of_no_match key1 key2
    rw [List.cons_append, hstep,
      ih (fun hi => h1 (List.infix_cons hi)) (fun hi => h2 (List.infix_cons hi))
        (fun hsuf => h3 (hsuf.trans (List.suffix_cons c cs)))]

/-! ### What each parsing function consumes

For the occurrence analysis we decompose every successful parse into
`input = consumed ++ rest` and show the consumed text is built from
backtick-free pieces and string-literal chunks (quote to quote, no
raw newline) — hence fence-free. -/

/-- `skipWs` removes a whitespace prefix. -/
theorem skipWs_decomp (l : List Char) :
    ∃ w, l = w ++ skipWs l ∧ ∀ x ∈ w, jsonWs x := by
  induction l with
  | nil => exact ⟨[], rfl, by simp⟩
  | cons c cs ih =>
    by_cases h : jsonWs c
    · obtain ⟨w, hw, hall⟩ := ih
      refine ⟨c :: w, ?_, ?_⟩
      · rw [show skipWs (c :: cs) = skipWs cs from by simp [skipWs, h],
          List.cons_append]
        exact congrArg (c :: ·) hw
      · intro x hx
        rcases List.mem_cons.mp hx with rfl | hx
        · exact h
        · exact hall x hx
    · refine ⟨[], ?_, by simp⟩
      simp [skipWs, h]

/-- If skipping whitespace empties a list, it was all whitespace. -/
theorem skipWs_eq_nil {l : List Char} (h : skipWs l = []) :
    ∀ x ∈ l, jsonWs x := by
  induction l with
  | nil => simp
  | cons c cs ih =>
    by_cases hc : jsonWs c
    · rw [show skipWs (c :: cs) = skipWs cs from by simp [skipWs, hc]] at h
      intro x hx
      rcases List.mem_cons.mp hx with rfl | hx
      · exact hc
      · exact ih h x hx
    · simp [skipWs, hc] at h

/-- JSON whitespace is never a backtick. -/
theorem jsonWs_ne_bt {x : Char} (h : jsonWs x = true) : x ≠ '`' := by
  intro he
  subst he
  exact absurd h (by decide)

/-- Dropping as many elements as `takeWhile` keeps yields
`dropWhile`. -/
theorem drop_takeWhile_length (p : Char → Bool) (l : List Char) :
    l.drop (l.takeWhile p).length = l.dropWhile p := by
  induction l with
  | nil => rfl
  | cons c cs ih =>
    by_cases h : p c <;>
      simp [List.takeWhile_cons, List.dropWhile_cons, h, ih]

/-- A digit run consumes exactly its digits, which are not
backticks. -/
theorem digits1_decomp {l ds r : List Char} (h : digits1 l = some (ds, r)) :
    l = ds ++ r ∧ '`' ∉ ds := by
  simp only [digits1] at h
  split at h
  · exact absurd h (by simp)
  · rw [Option.some.injEq, Prod.mk.injEq] at h
    obtain ⟨hds, hr⟩ := h
    subst hds
    subst hr
    constructor
    · rw [drop_takeWhile_length]
      exact (List.takeWhile_append_dropWhile _ _).symm
    · intro hmem
      exact absurd (List.mem_takeWhile_imp hmem) (by decide)

/-- The sign scanner consumes at most a minus sign. -/
theorem parseSign_decomp (l : List Char) :
    l = (parseSign l).1 ++ (parseSign l).2 ∧ '`' ∉ (parseSign l).1 := by
  rw [parseSign.eq_def]
  split
  · exact ⟨rfl, fun hm => absurd (List.mem_singleton.mp hm) (by decide)⟩
  · simp

/-- The integer part consumes only digits. -/
theorem parseIntPart_decomp {l ip r : List Char}
    (h : parseIntPart l = some (ip, r)) : l = ip ++ r ∧ '`' ∉ ip := by
  rw [parseIntPart.eq_def] at h
  split at h
  · rw [Option.some.injEq, Prod.mk.injEq] at h
    obtain ⟨hds, hr⟩ := h
    subst hds
    subst hr
    exact ⟨rfl, by decide⟩
  · exact digits1_decomp h

/-- The fraction part consumes only a dot and digits. -/
theorem parseFrac_decomp {l fp r : List Char}
    (h : parseFrac l = some (fp, r)) : l = fp ++ r ∧ '`' ∉ fp := by
  rw [parseFrac.eq_def] at h
  split at h
  · rename_i r0
    split at h
    · rename_i ds r' hd
      rw [Option.some.injEq, Prod.mk.injEq] at h
      obtain ⟨hfp, hr⟩ := h
      subst hfp
      subst hr
      obtain ⟨he, hm⟩ := digits1_decomp hd
      refine ⟨?_, ?_⟩
      · rw [List.cons_append, ← he]
      · intro hmem
        rcases List.mem_cons.mp hmem with h' | h'
        · exact absurd h' (by decide)
        · exact hm h'
    · exact absurd h (by simp)
  · rw [Option.some.injEq, Prod.mk.injEq] at h
    obtain ⟨hfp, hr⟩ := h
    subst hfp
    subst hr
    simp

/-- The exponent's sign scanner consumes at most one sign
character. -/
theorem parseExpSign_decomp (l : List Char) :
    l = (parseExpSign l).1 ++ (parseExpSign l).2 ∧
    '`' ∉ (parseExpSign l).1 := by
  rw [parseExpSign.eq_def]
  split
  · exact ⟨rfl, fun hm => absurd (List.mem_singleton.mp hm) (by decide)⟩
  · exact ⟨rfl, fun hm => absurd (List.mem_singleton.mp hm) (by decide)⟩
  · simp

/-- The exponent part consumes only a marker, an optional sign and
digits. -/
theorem parseExp_decomp {l ep r : List Char}
    (h : parseExp l = some (ep, r)) : l = ep ++ r ∧ '`' ∉ ep := by
  rw [parseExp.eq_def] at h
  split at h
  · rename_i c r0
    split at h
    · rename_i hce
      have hc : c ≠ '`' := by
        rcases hce with h' | h' <;> (subst h'; decide)
      split at h
      · rename_i ds r' hd
        rw [Option.some.injEq, Prod.mk.injEq] at h
        obtain ⟨hep, hr⟩ := h
        subst hep
        subst hr
        obtain ⟨hsg, hsgm⟩ := parseExpSign_decomp r0
        obtain ⟨hdg, hdgm⟩ := digits1_decomp hd
        refine ⟨?_, ?_⟩
        · rw [List.cons_append, List.append_assoc, ← hdg, ← hsg]
        · intro hmem
          rcases List.mem_cons.mp hmem with h' | h'
          · exact hc h'.symm
          · rcases List.mem_append.mp h' with h'' | h''
            · exact hsgm h''
            · exact hdgm h''
      · exact absurd h (by simp)
    · rw [Option.some.injEq, Prod.mk.injEq] at h
      obtain ⟨hep, hr⟩ := h
      subst hep
      subst hr
      simp
  · rw [Option.some.injEq, Prod.mk.injEq] at h
    obtain ⟨hep, hr⟩ := h
    subst hep
    subst hr
    simp

/-- A number literal consumes exactly its (backtick-free) lexeme. -/
theorem parseNumber_decomp {l lex r : List Char}
    (h : parseNumber l = some (lex, r)) : l = lex ++ r ∧ '`' ∉ lex := by
  have hsd := parseSign_decomp l
  simp only [parseNumber] at h
  rcases hps : parseSign l with ⟨sgn, l1⟩
  rw [hps] at h hsd
  simp only at h hsd
  split at h
  · exact absurd h (by simp)
  · rename_i ip l2 hip
    split at h
    · exact absurd h (by simp)
    · rename_i fp l3 hfp
      split at h
      · exact absurd h (by simp)
      · rename_i ep l4 hep
        rw [Option.some.injEq, Prod.mk.injEq] at h
        obtain ⟨hlex, hr⟩ := h
        subst hlex
        subst hr
        obtain ⟨hi1, hi2⟩ := parseIntPart_decomp hip
        obtain ⟨hf1, hf2⟩ := parseFrac_decomp hfp
        obtain ⟨he1, he2⟩ := parseExp_decomp hep
        refine ⟨?_, ?_⟩
        · rw [hsd.1, hi1, hf1, he1]
          simp [List.append_assoc]
        · intro hmem
          simp only [List.mem_append] at hmem
          rcases hmem with ((hm | hm) | hm) | hm
          · exact hsd.2 hm
          · exact hi2 hm
          · exact hf2 hm
          · exact he2 hm

/-- The last element of a cons is the last element of its nonempty
tail. -/
theorem getLast?_cons_of_ne_nil {a : Char} {l : List Char} (h : l ≠ []) :
    (a :: l).getLast? = l.getLast? := by
  cases l with
  | nil => exact absurd rfl h
  | cons b t => exact List.getLast?_cons_cons

/-- A hex digit is not a newline. -/
theorem hexVal_ne_lf {x : Char} {n : Nat} (h : hexVal x = some n) :
    x ≠ '\n' := by
  intro he
  subst he
  rw [show hexVal '\n' = none from by decide] at h
  cases h

/-- Extending a string-literal chunk on the left with escape or plain
characters (no newline among them) keeps the chunk's shape. -/
theorem strBody_chunk_extend {p cs' r c' : List Char}
    (hp : '\n' ∉ p) (hpne : p ≠ [])
    (hc1 : cs' = c' ++ r) (hc2 : '\n' ∉ c') (hc3 : c' ≠ [])
    (hc4 : c'.getLast? = some '"') :
    ∃ c, p ++ cs' = c ++ r ∧ '\n' ∉ c ∧ c ≠ [] ∧
      c.getLast? = some '"' := by
  refine ⟨p ++ c', by rw [hc1, List.append_assoc], ?_, ?_, ?_⟩
  · intro hm
    rcases List.mem_append.mp hm with h | h
    · exact hp h
    · exact hc2 h
  · intro he
    exact hpne (List.append_eq_nil.mp he).1
  · rw [getLast?_of_suffix ⟨p, rfl⟩ hc3]
    exact hc4

/-- A valid escape character is not a newline. -/
theorem escCode_ne_lf {e : Char} {n : Nat} (h : escCode e = some n) :
    e ≠ '\n' := by
  intro he
  subst he
  rw [show escCode '\n' = none from by decide] at h
  cases h

/-- A string-literal body consumes a chunk that contains no raw
newline and ends with the closing quote. -/
theorem strBody_decomp : ∀ (f : Nat) {l : List Char} {u : List Nat}
    {r : List Char}, strBody f l = some (u, r) →
    ∃ c, l = c ++ r ∧ '\n' ∉ c ∧ c ≠ [] ∧ c.getLast? = some '"' := by
  intro f
  induction f with
  | zero =>
    intro l u r h
    exact absurd h (by simp [strBody])
  | succ f ih =>
    intro l u r h
    cases l with
    | nil => exact absurd h (by simp [strBody])
    | cons c cs =>
      rw [strBody.eq_def] at h
      split at h
      · exact absurd h (by simp)
      · exact absurd h (by simp)
      rename_i fuel' c' cs' heq1 heq2
      injection heq1 with hf
      injection heq2 with hcc hcs
      subst hf
      subst hcc
      subst hcs
      split at h
      · rename_i hc
        rw [Option.some.injEq, Prod.mk.injEq] at h
        obtain ⟨_, hr⟩ := h
        subst hr
        subst hc
        exact ⟨['"'], rfl, by decide, by simp, rfl⟩
      · split at h
        · rename_i hq hbs
          subst hbs
          split at h
          · exact absurd h (by simp)
          · rename_i h1 h2 h3 h4 cs''
            split at h
            · rename_i a b c3 d ha hb hc3 hd
              rw [Option.map_eq_some'] at h
              obtain ⟨⟨u', r'⟩, hsb, huv⟩ := h
              rw [Prod.mk.injEq] at huv
              obtain ⟨_, hr⟩ := huv
              subst hr
              obtain ⟨c', hc1, hc2, hc3', hc4⟩ := ih hsb
              refine strBody_chunk_extend
                (p := ['\\', 'u', h1, h2, h3, h4]) ?_ (by simp)
                hc1 hc2 hc3' hc4
              intro hm
              simp only [List.mem_cons, List.not_mem_nil, or_false] at hm
              rcases hm with h' | h' | h' | h' | h' | h'
              · exact absurd h'.symm (by decide)
              · exact absurd h'.symm (by decide)
              · exact hexVal_ne_lf ha h'.symm
              · exact hexVal_ne_lf hb h'.symm
              · exact hexVal_ne_lf hc3 h'.symm
              · exact hexVal_ne_lf hd h'.symm
            · exact absurd h (by simp)
          · rename_i e cs' hno
            split at h
            · rename_i n hesc
              rw [Option.map_eq_some'] at h
              obtain ⟨⟨u', r'⟩, hsb, huv⟩ := h
              rw [Prod.mk.injEq] at huv
              obtain ⟨_, hr⟩ := huv
              subst hr
              obtain ⟨c', hc1, hc2, hc3, hc4⟩ := ih hsb
              refine strBody_chunk_extend (p := ['\\', e]) ?_ (by simp)
                hc1 hc2 hc3 hc4
              intro hm
              rcases List.mem_cons.mp hm with h' | h'
              · exact absurd h'.symm (by decide)
              · rw [List.mem_singleton] at h'
                exact escCode_ne_lf hesc h'.symm
            · exact absurd h (by simp)
        · split at h
          · exact absurd h (by simp)
          · rename_i hq hbs hctl
            rw [Option.map_eq_some'] at h
            obtain ⟨⟨u', r'⟩, hsb, huv⟩ := h
            rw [Prod.mk.injEq] at huv
            obtain ⟨_, hr⟩ := huv
            subst hr
            obtain ⟨c', hc1, hc2, hc3, hc4⟩ := ih hsb
            refine strBody_chunk_extend (p := [c]) ?_ (by simp)
              hc1 hc2 hc3 hc4
            intro hm
            rw [List.mem_singleton] at hm
            subst hm
            exact hctl (by decide)

/-- Whitespace runs are fence-free. -/
theorem fenceFree_ws {w : List Char} (h : ∀ x ∈ w, jsonWs x) :
    FenceFree w :=
  fenceFree_of_bt_free (fun hm => jsonWs_ne_bt (h _ hm) rfl)

/-- A consumed string literal (opening quote plus `strBody` chunk) is
fence-free. -/
theorem fenceFree_strChunk {c' : List Char} (h2 : '\n' ∉ c')
    (h3 : c' ≠ []) (h4 : c'.getLast? = some '"') :
    FenceFree ('"' :: c') := by
  apply fenceFree_string
  · rfl
  · rw [getLast?_cons_of_ne_nil h3]
    exact h4
  · intro hm
    rcases List.mem_cons.mp hm with h' | h'
    · exact absurd h'.symm (by decide)
    · exact h2 h'

/-- Every successful parse of the three mutual parsing functions
consumes a fence-free chunk of its input. -/
theorem parse_consumed : ∀ f : Nat,
    (∀ {l : List Char} {v : Json} {r : List Char},
      parseValue f l = some (v, r) → ∃ c, l = c ++ r ∧ FenceFree c) ∧
    (∀ {l : List Char} {es : List Json} {r : List Char},
      parseElems f l = some (es, r) → ∃ c, l = c ++ r ∧ FenceFree c) ∧
    (∀ {l : List Char} {ms : List (List Nat × Json)} {r : List Char},
      parseMembers f l = some (ms, r) → ∃ c, l = c ++ r ∧ FenceFree c) := by
  intro f
  induction f with
  | zero =>
    refine ⟨?_, ?_, ?_⟩
    · intro l v r h
      exact absurd h (by simp [parseValue])
    · intro l es r h
      exact absurd h (by simp [parseElems])
    · intro l ms r h
      exact absurd h (by simp [parseMembers])
  | succ f ih =>
    obtain ⟨ihv, ihe, ihm⟩ := ih
    refine ⟨?_, ?_, ?_⟩
    · -- parseValue
      intro l v r h
      cases l with
      | nil => exact absurd h (by simp [parseValue])
      | cons c cs =>
        simp only [parseValue] at h
        split at h
        · -- null
          rename_i hc
          subst hc
          split at h
          · rename_i rest
            rw [Option.some.injEq, Prod.mk.injEq] at h
            obtain ⟨_, hr⟩ := h
            subst hr
            exact ⟨['n', 'u', 'l', 'l'], rfl,
              fenceFree_of_bt_free (by decide)⟩
          · exact absurd h (by simp)
        · split at h
          · -- true
            rename_i hq hc
            subst hc
            split at h
            · rename_i rest
              rw [Option.some.injEq, Prod.mk.injEq] at h
              obtain ⟨_, hr⟩ := h
              subst hr
              exact ⟨['t', 'r', 'u', 'e'], rfl,
                fenceFree_of_bt_free (by decide)⟩
            · exact absurd h (by simp)
          · split at h
            · -- false
              rename_i hq1 hq2 hc
              subst hc
              split at h
              · rename_i rest
                rw [Option.some.injEq, Prod.mk.injEq] at h
                obtain ⟨_, hr⟩ := h
                subst hr
                exact ⟨['f', 'a', 'l', 's', 'e'], rfl,
                  fenceFree_of_bt_free (by decide)⟩
              · exact absurd h (by simp)
            · split at h
              · -- string
                rename_i hq1 hq2 hq3 hc
                subst hc
                rw [Option.map_eq_some'] at h
                obtain ⟨⟨u', r'⟩, hsb, huv⟩ := h
                rw [Prod.mk.injEq] at huv
                obtain ⟨_, hr⟩ := huv
                subst hr
                obtain ⟨c', hc1, hc2, hc3, hc4⟩ := strBody_decomp _ hsb
                refine ⟨'"' :: c', ?_, fenceFree_strChunk hc2 hc3 hc4⟩
                rw [hc1]
                rfl
              · split at h
                · -- number
                  rw [Option.map_eq_some'] at h
                  obtain ⟨⟨lex, r'⟩, hpn, huv⟩ := h
                  rw [Prod.mk.injEq] at huv
                  obtain ⟨_, hr⟩ := huv
                  subst hr
                  obtain ⟨hn1, hn2⟩ := parseNumber_decomp hpn
                  exact ⟨lex, hn1, fenceFree_of_bt_free hn2⟩
                · split at h
                  · -- array
                    rename_i hq1 hq2 hq3 hq4 hq5 hc
                    subst hc
                    obtain ⟨w, hw, hwall⟩ := skipWs_decomp cs
                    split at h
                    · -- empty array
                      rename_i rest heq
                      rw [Option.some.injEq, Prod.mk.injEq] at h
                      obtain ⟨_, hr⟩ := h
                      subst hr
                      refine ⟨'[' :: (w ++ [']']), ?_, ?_⟩
                      · rw [heq] at hw
                        rw [hw]
                        simp
                      · apply fenceFree_of_bt_free
                        intro hm
                        rcases List.mem_cons.mp hm with h' | h'
                        · exact absurd h'.symm (by decide)
                        · rcases List.mem_append.mp h' with h' | h'
                          · exact jsonWs_ne_bt (hwall _ h') rfl
                          · rw [List.mem_singleton] at h'
                            exact absurd h'.symm (by decide)
                    · -- nonempty array
                      rw [Option.map_eq_some'] at h
                      obtain ⟨⟨es, r'⟩, hpe, huv⟩ := h
                      rw [Prod.mk.injEq] at huv
                      obtain ⟨_, hr⟩ := huv
                      subst hr
                      obtain ⟨ce, hce1, hce2⟩ := ihe hpe
                      refine ⟨('[' :: w) ++ ce, ?_, ?_⟩
                      · rw [hce1] at hw
                        rw [hw]
                        simp
                      · exact fenceFree_append
                          (fenceFree_of_bt_free (by
                            intro hm
                            rcases List.mem_cons.mp hm with h' | h'
                            · exact absurd h'.symm (by decide)
                            · exact jsonWs_ne_bt (hwall _ h') rfl)) hce2
                  · split at h
                    · -- object
                      rename_i hq1 hq2 hq3 hq4 hq5 hq6 hc
                      subst hc
                      obtain ⟨w, hw, hwall⟩ := skipWs_decomp cs
                      split at h
                      · rename_i rest heq
                        rw [Option.some.injEq, Prod.mk.injEq] at h
                        obtain ⟨_, hr⟩ := h
                        subst hr
                        refine ⟨'{' :: (w ++ ['}']), ?_, ?_⟩
                        · rw [heq] at hw
                          rw [hw]
                          simp
                        · apply fenceFree_of_bt_free
                          intro hm
                          rcases List.mem_cons.mp hm with h' | h'
                          · exact absurd h'.symm (by decide)
                          · rcases List.mem_append.mp h' with h' | h'
                            · exact jsonWs_ne_bt (hwall _ h') rfl
                            · rw [List.mem_singleton] at h'
                              exact absurd h'.symm (by decide)
                      · rw [Option.map_eq_some'] at h
                        obtain ⟨⟨ms', r'⟩, hpm, huv⟩ := h
                        rw [Prod.mk.injEq] at huv
                        obtain ⟨_, hr⟩ := huv
                        subst hr
                        obtain ⟨cm, hcm1, hcm2⟩ := ihm hpm
                        refine ⟨('{' :: w) ++ cm, ?_, ?_⟩
                        · rw [hcm1] at hw
                          rw [hw]
                          simp
                        · exact fenceFree_append
                            (fenceFree_of_bt_free (by
                              intro hm
                              rcases List.mem_cons.mp hm with h' | h'
                              · exact absurd h'.symm (by decide)
                              · exact jsonWs_ne_bt (hwall _ h') rfl)) hcm2
                    · exact absurd h (by simp)
    · -- parseElems
      intro l es r h
      simp only [parseElems] at h
      obtain ⟨w, hw, hwall⟩ := skipWs_decomp l
      split at h
      · exact absurd h (by simp)
      · rename_i v rest hpv
        obtain ⟨cv, hcv1, hcv2⟩ := ihv hpv
        obtain ⟨w', hw', hwall'⟩ := skipWs_decomp rest
        split at h
        · -- comma
          rename_i rest' heq
          rw [Option.map_eq_some'] at h
          obtain ⟨⟨es', r'⟩, hpe, huv⟩ := h
          rw [Prod.mk.injEq] at huv
          obtain ⟨_, hr⟩ := huv
          subst hr
          obtain ⟨cr, hcr1, hcr2⟩ := ihe hpe
          refine ⟨w ++ (cv ++ (w' ++ ([','] ++ cr))), ?_, ?_⟩
          · rw [hw, hcv1, hw', heq, hcr1]
            simp
          · exact fenceFree_append (fenceFree_ws hwall)
              (fenceFree_append hcv2 (fenceFree_append (fenceFree_ws hwall')
                (fenceFree_append
                  (fenceFree_of_bt_free (by
                    intro hm
                    rw [List.mem_singleton] at hm
                    exact absurd hm.symm (by decide))) hcr2)))
        · -- bracket
          rename_i rest' heq
          rw [Option.some.injEq, Prod.mk.injEq] at h
          obtain ⟨_, hr⟩ := h
          subst hr
          refine ⟨w ++ (cv ++ (w' ++ [']'])), ?_, ?_⟩
          · rw [hw, hcv1, hw', heq]
            simp
          · exact fenceFree_append (fenceFree_ws hwall)
              (fenceFree_append hcv2 (fenceFree_append (fenceFree_ws hwall')
                (fenceFree_of_bt_free (by
                  intro hm
                  rw [List.mem_singleton] at hm
                  exact absurd hm.symm (by decide)))))
        · exact absurd h (by simp)
    · -- parseMembers
      intro l ms r h
      simp only [parseMembers] at h
      obtain ⟨w, hw, hwall⟩ := skipWs_decomp l
      split at h
      · -- key string
        rename_i cs1 heq
        split at h
        · exact absurd h (by simp)
        · rename_i key rest hsb
          obtain ⟨ck, hck1, hck2, hck3, hck4⟩ := strBody_decomp _ hsb
          obtain ⟨w', hw', hwall'⟩ := skipWs_decomp rest
          split at h
          · -- colon
            rename_i rest' heq'
            obtain ⟨w'', hw'', hwall''⟩ := skipWs_decomp rest'
            split at h
            · exact absurd h (by simp)
            · rename_i v rest'' hpv
              obtain ⟨cv, hcv1, hcv2⟩ := ihv hpv
              obtain ⟨w3, hw3, hwall3⟩ := skipWs_decomp rest''
              split at h
              · -- comma
                rename_i rest3 heq''
                rw [Option.map_eq_some'] at h
                obtain ⟨⟨ms', r'⟩, hpm, huv⟩ := h
                rw [Prod.mk.injEq] at huv
                obtain ⟨_, hr⟩ := huv
                subst hr
                obtain ⟨cm, hcm1, hcm2⟩ := ihm hpm
                refine ⟨w ++ (('"' :: ck) ++ (w' ++ ([':'] ++ (w'' ++
                  (cv ++ (w3 ++ ([','] ++ cm))))))), ?_, ?_⟩
                · rw [hw, heq, hck1, hw', heq', hw'', hcv1, hw3, heq'',
                    hcm1]
                  simp
                · exact fenceFree_append (fenceFree_ws hwall)
                    (fenceFree_append (fenceFree_strChunk hck2 hck3 hck4)
                      (fenceFree_append (fenceFree_ws hwall')
                        (fenceFree_append
                          (fenceFree_of_bt_free (by
                            intro hm
                            rw [List.mem_singleton] at hm
                            exact absurd hm.symm (by decide)))
                          (fenceFree_append (fenceFree_ws hwall'')
                            (fenceFree_append hcv2
                              (fenceFree_append (fenceFree_ws hwall3)
                                (fenceFree_append
                                  (fenceFree_of_bt_free (by
                                    intro hm
                                    rw [List.mem_singleton] at hm
                                    exact absurd hm.symm (by decide)))
                                  hcm2)))))))
              · -- closing brace
                rename_i rest3 heq''
                rw [Option.some.injEq, Prod.mk.injEq] at h
                obtain ⟨_, hr⟩ := h
                subst hr
                refine ⟨w ++ (('"' :: ck) ++ (w' ++ ([':'] ++ (w'' ++
                  (cv ++ (w3 ++ ['}'])))))), ?_, ?_⟩
                · rw [hw, heq, hck1, hw', heq', hw'', hcv1, hw3, heq'']
                  simp
                · exact fenceFree_append (fenceFree_ws hwall)
                    (fenceFree_append (fenceFree_strChunk hck2 hck3 hck4)
                      (fenceFree_append (fenceFree_ws hwall')
                        (fenceFree_append
                          (fenceFree_of_bt_free (by
                            intro hm
                            rw [List.mem_singleton] at hm
                            exact absurd hm.symm (by decide)))
                          (fenceFree_append (fenceFree_ws hwall'')
                            (fenceFree_append hcv2
                              (fenceFree_append (fenceFree_ws hwall3)
                                (fenceFree_of_bt_free (by
                                  intro hm
                                  rw [List.mem_singleton] at hm
                                  exact absurd hm.symm (by decide)))))))))
              · exact absurd h (by simp)
          · exact absurd h (by simp)
      · exact absurd h (by simp)

/-- Raw text accepted by the JSON grammar is fence-free: it is
whitespace, then a value chunk, then whitespace, and each part is
fence-free. -/
theorem parse_fencefree {s : String} {v : Json} (hp : parse s = some v) :
    FenceFree s.data := by
  unfold parse at hp
  split at hp
  · rename_i v' rest hpv
    split at hp
    · rename_i hrest
      obtain ⟨c, hc1, hc2⟩ := (parse_consumed _).1 hpv
      obtain ⟨w, hw, hwall⟩ := skipWs_decomp s.data
      rw [hc1] at hw
      rw [hw]
      exact fenceFree_append (fenceFree_ws hwall)
        (fenceFree_append hc2 (fenceFree_ws (skipWs_eq_nil hrest)))
    · exact absurd hp (by simp)
  · exact absurd hp (by simp)

/-- C9: for every valid JSON payload — any raw text the JSON grammar
accepts, with no further restriction — wrapping it in the fenced
markers ```` ```json\n…\n``` ```` and cleaning strips exactly the two
markers (recovering the payload verbatim), so the wrapped raw text
parses to the very same value as the unwrapped raw text parsed
directly. -/
theorem C9_fenced_wrapping_parses_like_unwrapped (s : String) (v : Json)
    (hp : parse s = some v) :
    String.mk (stripFences ("```json\n" ++ s ++ "\n```").data) = s ∧
    parseJson ("```json\n" ++ s ++ "\n```") = parseJson s := by
  obtain ⟨hf1, hf2, hf3, _⟩ := parse_fencefree hp
  have hdata : ("```json\n" ++ s ++ "\n```").data
      = fenceOpen ++ (s.data ++ fenceClose) := by
    rw [String.data_append, String.data_append, List.append_assoc]
    rfl
  have hs2 : stripFences (s.data ++ fenceClose) = s.data :=
    stripFences_append_close hf1 hf2 (hf3 7 (by omega) (by omega))
  have h0 : stripFences (fenceOpen ++ (s.data ++ fenceClose))
      = stripFences (s.data ++ fenceClose) := rfl
  have hwrap : String.mk
      (stripFences ("```json\n" ++ s ++ "\n```").data) = s := by
    rw [hdata, h0, hs2]
  have hself : String.mk (stripFences s.data) = s := by
    rw [stripFences_eq_self hf1 hf2]
  refine ⟨hwrap, ?_⟩
  simp only [parseJson]
  rw [hwrap, hself]

/-- Witness for C9 at the concrete payload `\x7b"a":1\x7d`. -/
theorem C9_witness :
    String.mk
      (stripFences ("```json\n" ++ "\x7b\"a\":1\x7d" ++ "\n```").data) =
      "\x7b\"a\":1\x7d" ∧
    parseJson ("```json\n" ++ "\x7b\"a\":1\x7d" ++ "\n```") =
      parseJson "\x7b\"a\":1\x7d" :=
  C9_fenced_wrapping_parses_like_unwrapped _
    (Json.obj [(jstr "a", Json.num ['1'])]) rfl

end EchoScript
